import Mathlib

/-!
Verification of the sp-multihash registry (`src/multihash_impl.rs`) and its
multihash codec against the repository specification.

The visible source file is the declarative registry table: the `Code` enum,
whose `mh(...)` attributes bind each variant to a numeric code and a fixed
digest size, under a registry-wide digest capacity `alloc_size = 64`.  The
varint codec, the multihash value with its encode/decode/verify operations,
and the hasher capability are part of this repository but not of the visible
source; those are modelled from the specification, as marked on each such
definition.  Byte sequences are modelled as `List Nat` with bytes `< 256`.
-/

/-! ## The algorithm registry, translated from `src/multihash_impl.rs` -/

/-- The registry enum `Code` from `src/multihash_impl.rs` lines 12-90:
one variant per registered algorithm. -/
inductive Code where
  | Sha2_256
  | Sha2_512
  | Sha3_224
  | Sha3_256
  | Sha3_384
  | Sha3_512
  | Keccak224
  | Keccak256
  | Keccak384
  | Keccak512
  | Blake2b256
  | Blake2b512
  | Blake2s128
  | Blake2s256
  | Blake3_256
  | Identity
deriving DecidableEq, Repr, Fintype

/-- The numeric code bound to each variant by its `mh(code = ...)` attribute. -/
def Code.code : Code → Nat
  | .Sha2_256 => 0x12
  | .Sha2_512 => 0x13
  | .Sha3_224 => 0x17
  | .Sha3_256 => 0x16
  | .Sha3_384 => 0x15
  | .Sha3_512 => 0x14
  | .Keccak224 => 0x1a
  | .Keccak256 => 0x1b
  | .Keccak384 => 0x1c
  | .Keccak512 => 0x1d
  | .Blake2b256 => 0xb220
  | .Blake2b512 => 0xb240
  | .Blake2s128 => 0xb250
  | .Blake2s256 => 0xb260
  | .Blake3_256 => 0x1e
  | .Identity => 0x00

/-- The digest size (in bytes) bound to each variant by the size parameter of
its `mh(digest = ...)` attribute; for `Identity` this is the declared cap of
`IdentityDigest<64>`, not a fixed length. -/
def Code.digestSize : Code → Nat
  | .Sha2_256 => 32
  | .Sha2_512 => 64
  | .Sha3_224 => 28
  | .Sha3_256 => 32
  | .Sha3_384 => 48
  | .Sha3_512 => 64
  | .Keccak224 => 28
  | .Keccak256 => 32
  | .Keccak384 => 48
  | .Keccak512 => 64
  | .Blake2b256 => 32
  | .Blake2b512 => 64
  | .Blake2s128 => 16
  | .Blake2s256 => 32
  | .Blake3_256 => 32
  | .Identity => 64

/-- The registry-wide digest capacity, from `mh(alloc_size = 64)`
(`src/multihash_impl.rs` line 11). -/
def allocSize : Nat := 64

/-- Every registry variant, in source order. -/
def allCodes : List Code :=
  [.Sha2_256, .Sha2_512, .Sha3_224, .Sha3_256, .Sha3_384, .Sha3_512,
   .Keccak224, .Keccak256, .Keccak384, .Keccak512,
   .Blake2b256, .Blake2b512, .Blake2s128, .Blake2s256, .Blake3_256, .Identity]

/-! ## Varint codec (spec section 4.1) -/

/-- The error outcomes of decoding, from spec section 7. -/
inductive MhError where
  | Truncated
  | MalformedVarint
  | DigestTooLarge
deriving DecidableEq, Repr

/-- Modelled from the spec: varint encoding (section 4.1), little-endian
base-128, 7 data bits per byte, high bit set on every byte but the last.
The fuel argument bounds the number of emitted bytes; ten bytes represent
every unsigned 64-bit value (section 3 declares codes to be u64), so fuel 10
is exact on the whole declared domain. -/
def varintEncodeAux : Nat → Nat → List Nat
  | 0, _ => []
  | fuel + 1, n =>
    if n < 128 then [n] else (n % 128 + 128) :: varintEncodeAux fuel (n / 128)

/-- Modelled from the spec: `encode(value: u64) -> bytes` of section 4.1. -/
def varintEncode (n : Nat) : List Nat := varintEncodeAux 10 n

/-- Modelled from the spec: the varint decoding loop. `i` counts bytes already
consumed, `shift` the bit position, `acc` the value so far.  Exhausted input is
`Truncated`; a continuation sequence needing more than the ten bytes of a
64-bit value is `MalformedVarint` (spec section 4.1). -/
def varintDecodeAux : Nat → Nat → Nat → List Nat → Except MhError (Nat × List Nat)
  | _, _, _, [] => .error .Truncated
  | i, shift, acc, b :: rest =>
    if b < 128 then .ok (acc + b * 2 ^ shift, rest)
    else if 9 ≤ i then .error .MalformedVarint
    else varintDecodeAux (i + 1) (shift + 7) (acc + (b - 128) * 2 ^ shift) rest

/-- Modelled from the spec: `decode(bytes) -> (value, rest)` of section 4.1,
returning the decoded value together with the unconsumed bytes. -/
def varintDecode (bs : List Nat) : Except MhError (Nat × List Nat) :=
  varintDecodeAux 0 0 0 bs

/-! ## Multihash value and codec (spec sections 3, 4.4, 6) -/

/-- Modelled from the spec: the Multihash Value of section 3 — the triple
(code, size, digest bytes).  The digest field holds the used bytes of the
Digest Buffer. -/
structure Multihash where
  code : Nat
  size : Nat
  digest : List Nat
deriving DecidableEq, Repr

/-- Well-formedness of a Multihash Value per spec section 3: the code is an
unsigned 64-bit integer, `size` is the used length of the Digest Buffer
(which holds exactly the digest bytes), the used length is within the
capacity `C = allocSize`, and the digest consists of bytes. -/
def Multihash.wf (v : Multihash) : Prop :=
  v.code < 2 ^ 64 ∧ v.size = v.digest.length ∧ v.size ≤ allocSize ∧
    ∀ b ∈ v.digest, b < 256

instance (v : Multihash) : Decidable v.wf := by
  unfold Multihash.wf; infer_instance

/-- Modelled from the spec: `encode` of section 4.4 — emits
`varint(code) || varint(size) || digest[0..size]`, nothing else. -/
def Multihash.encode (v : Multihash) : List Nat :=
  varintEncode v.code ++ varintEncode v.size ++ v.digest.take v.size

/-- Modelled from the spec: `decode` of section 4.4, following the decode
state machine `ParseCode → ParseSize → ValidateSize → CopyDigest`: the size
cap `size ≤ C` is validated before any digest bytes are required (which is
what makes the oversized-claim rejection of section 8 independent of trailing
bytes); the trailing bytes are returned unconsumed. -/
def Multihash.decode (bs : List Nat) : Except MhError (Multihash × List Nat) :=
  match varintDecode bs with
  | .error e => .error e
  | .ok (code, rest1) =>
    match varintDecode rest1 with
    | .error e => .error e
    | .ok (size, rest2) =>
      if allocSize < size then .error .DigestTooLarge
      else if rest2.length < size then .error .Truncated
      else .ok ({ code := code, size := size, digest := rest2.take size },
                rest2.drop size)

/-! ## Registry lookup and verify (spec sections 4.3, 4.4) -/

/-- Modelled from the spec: `resolve(code)` of section 4.3 — lookup of a
numeric code over the closed registry. -/
def resolveCode (n : Nat) : Option Code :=
  allCodes.find? fun c => c.code == n

/-- Modelled from the spec: the outcome of `verify` (section 4.4) —
a boolean digest comparison, or `notFound` for an unregistered code
(distinct from `ok false`), or `sizeMismatch` when the declared size
disagrees with the resolved descriptor's output size. -/
inductive VerifyOutcome where
  | ok (b : Bool)
  | notFound
  | sizeMismatch
deriving DecidableEq, Repr

/-- Modelled from the spec: `verify(value, registry)` of section 4.4.  The
caller supplies the recomputed digest bytes to compare against (the spec's
consumers "confirm that received bytes match a recomputed digest",
section 6). -/
def verify (v : Multihash) (recomputed : List Nat) : VerifyOutcome :=
  match resolveCode v.code with
  | none => .notFound
  | some c =>
    if v.size = c.digestSize then .ok (v.digest == recomputed)
    else .sizeMismatch

/-! ## Hasher capability and dispatch (spec sections 4.2, 4.3) -/

/-- Modelled from the spec: a hasher family assigns to each registry variant
its bound hash function.  The concrete cryptographic functions are external
collaborators (spec sections 1, 4.2), so the development is parametric in
this family. -/
def HasherFamily : Type := Code → List Nat → List Nat

/-- Modelled from the spec: the Algorithm Descriptor invariant of section 3 —
the bound hasher produces exactly the declared number of bytes for every
input, except the identity hasher, whose declared size is a cap on the
output length rather than a fixed length. -/
def HasherFamily.wf (H : HasherFamily) : Prop :=
  ∀ c input,
    ((c ≠ Code.Identity → (H c input).length = c.digestSize) ∧
     (c = Code.Identity → (H c input).length ≤ Code.digestSize Code.Identity)) ∧
    ∀ b ∈ H c input, b < 256

/-- Modelled from the spec: `hash(selector, input)` of section 4.3 — runs the
bound hasher and wraps the output with the selector's code and the actual
output length into a Multihash Value. -/
def hash (H : HasherFamily) (c : Code) (input : List Nat) : Multihash :=
  { code := c.code, size := (H c input).length, digest := H c input }

instance {ε α : Type} [DecidableEq ε] [DecidableEq α] : DecidableEq (Except ε α) :=
  fun x y =>
    match x, y with
    | .error a, .error b =>
      if h : a = b then isTrue (by rw [h]) else isFalse (by simp [h])
    | .ok a, .ok b =>
      if h : a = b then isTrue (by rw [h]) else isFalse (by simp [h])
    | .error _, .ok _ => isFalse (by simp)
    | .ok _, .error _ => isFalse (by simp)

/-- Modelled from the spec: the identity hasher bound to `Code::Identity`
(`IdentityHasher::<64>`, `src/multihash_impl.rs` lines 85-89) — its digest
passes the input through, truncated to the declared cap of 64 bytes
(spec section 4.2). -/
def identityDigest (input : List Nat) : List Nat :=
  input.take (Code.digestSize Code.Identity)

/-- Modelled from the spec: the Digest Buffer of section 3 — capacity
`allocSize`, a used length `n`, and backing bytes of exactly the capacity,
with the bytes beyond `n` unspecified (here zero-filled). -/
structure DigestBuffer where
  n : Nat
  data : List Nat

/-- Modelled from the spec: writing a hasher output into a fresh Digest
Buffer (section 3: mutated only at construction). -/
def DigestBuffer.write (d : List Nat) : DigestBuffer :=
  { n := min d.length allocSize,
    data := (d ++ List.replicate (allocSize - d.length) 0).take allocSize }

/-- The used bytes of a Digest Buffer. -/
def DigestBuffer.bytes (b : DigestBuffer) : List Nat := b.data.take b.n

/-- Modelled from the spec: wrapping a raw digest (known to come from the
variant `c`) into a Multihash Value, the `multihash_from_digest` path of the
source's tests. -/
def multihashFromDigest (c : Code) (d : List Nat) : Multihash :=
  { code := c.code, size := d.length, digest := d }

/-- Modelled from the spec: the dispatch path `Code::digest` of the source's
tests — run the bound hasher, capture its output in a Digest Buffer
(section 2 data flow), and assemble the Multihash Value from the buffer. -/
def dispatchDigest (H : HasherFamily) (c : Code) (input : List Nat) : Multihash :=
  let buf := DigestBuffer.write (H c input)
  { code := c.code, size := buf.n, digest := buf.bytes }

/-! ## Varint lemmas -/

theorem varintEncodeAux_length (fuel n : Nat) :
    (varintEncodeAux fuel n).length ≤ fuel := by
  induction fuel generalizing n with
  | zero => simp [varintEncodeAux]
  | succ fuel ih =>
    by_cases h : n < 128
    · simp [varintEncodeAux, h]
    · simp only [varintEncodeAux, if_neg h, List.length_cons]
      exact Nat.succ_le_succ (ih (n / 128))

theorem varintDecodeAux_encodeAux (fuel : Nat) :
    ∀ n i shift acc rest, 1 ≤ fuel → n < 128 ^ fuel → i + fuel ≤ 10 →
      varintDecodeAux i shift acc (varintEncodeAux fuel n ++ rest) =
        .ok (acc + n * 2 ^ shift, rest) := by
  induction fuel with
  | zero => intro n i shift acc rest h; omega
  | succ fuel ih =>
    intro n i shift acc rest _ hn hi
    by_cases hlt : n < 128
    · simp [varintEncodeAux, hlt, varintDecodeAux]
    · have hge : 128 ≤ n := Nat.le_of_not_lt hlt
      have hdiv : n / 128 < 128 ^ fuel := by
        rw [Nat.div_lt_iff_lt_mul (by norm_num : 0 < 128)]
        calc n < 128 ^ (fuel + 1) := hn
          _ = 128 ^ fuel * 128 := by rw [pow_succ]
      have hfuel : 1 ≤ fuel := by
        rcases Nat.eq_zero_or_pos fuel with h0 | h1
        · subst h0
          simp only [pow_zero] at hdiv
          have : 1 ≤ n / 128 := Nat.one_le_div_iff (by norm_num) |>.mpr hge
          omega
        · exact h1
      have hbyte : ¬ n % 128 + 128 < 128 := by omega
      have hidx : ¬ 9 ≤ i := by omega
      simp only [varintEncodeAux, if_neg hlt, List.cons_append, varintDecodeAux,
        if_neg hbyte, if_neg hidx]
      have hsub : n % 128 + 128 - 128 = n % 128 := by omega
      rw [hsub, ih (n / 128) (i + 1) (shift + 7) (acc + n % 128 * 2 ^ shift) rest
        hfuel hdiv (by omega)]
      have e1 : (2 : Nat) ^ (shift + 7) = 2 ^ shift * 128 := by
        rw [pow_add]; norm_num
      have e2 : n % 128 * 2 ^ shift + n / 128 * 2 ^ (shift + 7) = n * 2 ^ shift := by
        calc n % 128 * 2 ^ shift + n / 128 * 2 ^ (shift + 7)
            = (n % 128 + 128 * (n / 128)) * 2 ^ shift := by rw [e1]; ring
          _ = n * 2 ^ shift := by rw [Nat.mod_add_div]
      rw [Nat.add_assoc, e2]

theorem varintDecode_encode (n : Nat) (hn : n < 2 ^ 64) (rest : List Nat) :
    varintDecode (varintEncode n ++ rest) = .ok (n, rest) := by
  have h70 : n < 128 ^ 10 := by
    calc n < 2 ^ 64 := hn
      _ ≤ 128 ^ 10 := by norm_num
  have := varintDecodeAux_encodeAux 10 n 0 0 0 rest (by norm_num) h70 (by norm_num)
  simpa [varintDecode, varintEncode] using this

theorem varintDecodeAux_encodeAux_take (fuel : Nat) :
    ∀ n i shift acc j, n < 128 ^ fuel → i + fuel ≤ 10 →
      j < (varintEncodeAux fuel n).length →
      varintDecodeAux i shift acc ((varintEncodeAux fuel n).take j) =
        .error .Truncated := by
  induction fuel with
  | zero => intro n i shift acc j _ _ hj; simp [varintEncodeAux] at hj
  | succ fuel ih =>
    intro n i shift acc j hn hi hj
    by_cases hlt : n < 128
    · simp only [varintEncodeAux, if_pos hlt, List.length_cons, List.length_nil] at hj
      interval_cases j
      simp [varintDecodeAux]
    · have hge : 128 ≤ n := Nat.le_of_not_lt hlt
      have hdiv : n / 128 < 128 ^ fuel := by
        rw [Nat.div_lt_iff_lt_mul (by norm_num : 0 < 128)]
        calc n < 128 ^ (fuel + 1) := hn
          _ = 128 ^ fuel * 128 := by rw [pow_succ]
      match j with
      | 0 => simp [varintDecodeAux]
      | j + 1 =>
        have hbyte : ¬ n % 128 + 128 < 128 := by omega
        have hidx : ¬ 9 ≤ i := by
          have : 1 ≤ fuel := by
            rcases Nat.eq_zero_or_pos fuel with h0 | h1
            · subst h0
              simp only [varintEncodeAux, if_neg hlt, List.length_cons,
                List.length_nil] at hj
              omega
            · exact h1
          omega
        simp only [varintEncodeAux, if_neg hlt, List.length_cons] at hj ⊢
        simp only [List.take_cons, varintDecodeAux, if_neg hbyte, if_neg hidx]
        exact ih (n / 128) (i + 1) (shift + 7) _ j hdiv (by omega) (by omega)

theorem varintDecode_encode_take (n : Nat) (hn : n < 2 ^ 64) (j : Nat)
    (hj : j < (varintEncode n).length) :
    varintDecode ((varintEncode n).take j) = .error .Truncated := by
  have h70 : n < 128 ^ 10 := by
    calc n < 2 ^ 64 := hn
      _ ≤ 128 ^ 10 := by norm_num
  exact varintDecodeAux_encodeAux_take 10 n 0 0 0 j h70 (by norm_num) hj

theorem varintDecodeAux_allCont_short :
    ∀ bs i shift acc, (∀ b ∈ bs, 128 ≤ b) → bs.length + i ≤ 9 →
      varintDecodeAux i shift acc bs = .error .Truncated := by
  intro bs
  induction bs with
  | nil => intro i shift acc _ _; simp [varintDecodeAux]
  | cons b rest ih =>
    intro i shift acc hall hlen
    have hb : 128 ≤ b := hall b (List.mem_cons_self b rest)
    have hb1 : ¬ b < 128 := by omega
    have hi : ¬ 9 ≤ i := by
      simp only [List.length_cons] at hlen
      omega
    simp only [varintDecodeAux, if_neg hb1, if_neg hi]
    refine ih (i + 1) (shift + 7) _ (fun x hx => hall x (List.mem_cons_of_mem b hx)) ?_
    simp only [List.length_cons] at hlen
    omega

theorem varintDecodeAux_allCont_long :
    ∀ bs i shift acc, i ≤ 9 → 10 - i ≤ bs.length →
      (∀ b ∈ bs.take (10 - i), 128 ≤ b) →
      varintDecodeAux i shift acc bs = .error .MalformedVarint := by
  intro bs
  induction bs with
  | nil => intro i shift acc hi hlen _; simp at hlen; omega
  | cons b rest ih =>
    intro i shift acc hi hlen hall
    have hpos : 1 ≤ 10 - i := by omega
    have hb : 128 ≤ b := by
      apply hall b
      have : (b :: rest).take (10 - i) = b :: rest.take (10 - i - 1) := by
        match h : 10 - i with
        | 0 => omega
        | k + 1 => simp [List.take_cons]
      rw [this]
      exact List.mem_cons_self b _
    have hb1 : ¬ b < 128 := by omega
    by_cases h9 : 9 ≤ i
    · simp [varintDecodeAux, hb1, h9]
    · simp only [varintDecodeAux, if_neg hb1, if_neg h9]
      refine ih (i + 1) (shift + 7) _ (by omega) ?_ ?_
      · simp only [List.length_cons] at hlen
        omega
      · intro x hx
        apply hall x
        have heq : (b :: rest).take (10 - i) = b :: rest.take (10 - i - 1) := by
          match h : 10 - i with
          | 0 => omega
          | k + 1 => simp [List.take_cons]
        rw [heq]
        have : 10 - (i + 1) = 10 - i - 1 := by omega
        rw [this] at hx
        exact List.mem_cons_of_mem b hx

/-! ## Registry facts and hash well-formedness -/

theorem Code.code_lt (c : Code) : c.code < 2 ^ 64 := by
  cases c <;> decide

theorem Code.digestSize_le (c : Code) : c.digestSize ≤ allocSize := by
  cases c <;> decide

theorem hash_wf (H : HasherFamily) (hH : H.wf) (c : Code) (input : List Nat) :
    (hash H c input).wf := by
  obtain ⟨⟨hfix, hid⟩, hbytes⟩ := hH c input
  refine ⟨c.code_lt, rfl, ?_, hbytes⟩
  show (H c input).length ≤ allocSize
  by_cases hc : c = Code.Identity
  · have h1 := hid hc
    have h2 : Code.digestSize Code.Identity ≤ allocSize := Code.digestSize_le _
    omega
  · rw [hfix hc]
    exact c.digestSize_le

/-! ## Codec roundtrip -/

theorem Multihash.decode_encode (v : Multihash) (hv : v.wf) :
    Multihash.decode v.encode = .ok (v, []) := by
  obtain ⟨hc, hs, hcap, -⟩ := hv
  have hs64 : v.size < 2 ^ 64 := by
    have h64 : allocSize = 64 := rfl
    omega
  have htake : v.digest.take v.size = v.digest := by
    rw [hs]
    exact List.take_length v.digest
  have hdrop : v.digest.drop v.size = [] := by
    rw [hs]
    exact List.drop_length v.digest
  have h1 : ¬ allocSize < v.size := Nat.not_lt.mpr hcap
  have h2 : ¬ v.digest.length < v.size := by omega
  show Multihash.decode (varintEncode v.code ++ varintEncode v.size ++
    v.digest.take v.size) = .ok (v, [])
  rw [htake, List.append_assoc]
  simp only [Multihash.decode, varintDecode_encode v.code hc,
    varintDecode_encode v.size hs64, if_neg h1, if_neg h2, htake, hdrop]

/-! ## A concrete hasher family for witnesses -/

/-- A concrete hasher family standing in for the external hash
implementations: it satisfies the Algorithm Descriptor invariant and is used
to instantiate theorems that are parametric in the hashers. -/
def sampleHashers : HasherFamily := fun c input =>
  if c = Code.Identity then
    (input.take (Code.digestSize Code.Identity)).map (· % 256)
  else List.replicate c.digestSize 0

theorem sampleHashers_wf : HasherFamily.wf sampleHashers := by
  intro c input
  refine ⟨⟨?_, ?_⟩, ?_⟩
  · intro hc
    simp [sampleHashers, hc]
  · intro hc
    subst hc
    have heq : sampleHashers Code.Identity input =
        (input.take (Code.digestSize Code.Identity)).map (· % 256) := by
      simp [sampleHashers]
    rw [heq, List.length_map, List.length_take]
    exact Nat.min_le_left _ _
  · intro b hb
    by_cases hc : c = Code.Identity
    · subst hc
      have heq : sampleHashers Code.Identity input =
          (input.take (Code.digestSize Code.Identity)).map (· % 256) := by
        simp [sampleHashers]
      rw [heq] at hb
      obtain ⟨a, -, rfl⟩ := List.mem_map.mp hb
      exact Nat.mod_lt a (by norm_num)
    · simp only [sampleHashers, if_neg hc, List.mem_replicate] at hb
      omega

/-! ## Claim theorems -/

/-- C1: for every registered algorithm and every input byte sequence (given
any hasher family satisfying the descriptor invariant, the concrete hash
functions being external collaborators), decoding the encoding of the
Multihash Value produced by hashing that input yields the original value
with no unconsumed bytes. -/
theorem claim1_hash_roundtrip (H : HasherFamily) (hH : H.wf) (c : Code)
    (input : List Nat) :
    Multihash.decode (Multihash.encode (hash H c input)) =
      .ok (hash H c input, []) :=
  Multihash.decode_encode _ (hash_wf H hH c input)

/-- Witness for C1: the roundtrip at the SHA3-256 variant on a concrete
input, with the hasher-family hypothesis discharged at `sampleHashers`. -/
theorem claim1_hash_roundtrip_witness :
    HasherFamily.wf sampleHashers ∧
      Multihash.decode (Multihash.encode (hash sampleHashers Code.Sha3_256
        [104, 101, 108, 108, 111])) =
        .ok (hash sampleHashers Code.Sha3_256 [104, 101, 108, 108, 111], []) :=
  ⟨sampleHashers_wf,
   claim1_hash_roundtrip sampleHashers sampleHashers_wf Code.Sha3_256
     [104, 101, 108, 108, 111]⟩

/-- C2: the registry binds exactly the well-known numeric code and digest
size to each algorithm variant, and within the registry all codes are
pairwise distinct. -/
theorem claim2_registry_table :
    ((Code.Sha2_256.code = 0x12 ∧ Code.Sha2_256.digestSize = 32) ∧
     (Code.Sha2_512.code = 0x13 ∧ Code.Sha2_512.digestSize = 64) ∧
     (Code.Sha3_256.code = 0x16 ∧ Code.Sha3_256.digestSize = 32) ∧
     (Code.Sha3_512.code = 0x14 ∧ Code.Sha3_512.digestSize = 64) ∧
     (Code.Sha3_224.code = 0x17 ∧ Code.Sha3_224.digestSize = 28) ∧
     (Code.Sha3_384.code = 0x15 ∧ Code.Sha3_384.digestSize = 48) ∧
     (Code.Keccak224.code = 0x1a ∧ Code.Keccak224.digestSize = 28) ∧
     (Code.Keccak256.code = 0x1b ∧ Code.Keccak256.digestSize = 32) ∧
     (Code.Keccak384.code = 0x1c ∧ Code.Keccak384.digestSize = 48) ∧
     (Code.Keccak512.code = 0x1d ∧ Code.Keccak512.digestSize = 64) ∧
     (Code.Blake2b256.code = 0xb220 ∧ Code.Blake2b256.digestSize = 32) ∧
     (Code.Blake2b512.code = 0xb240 ∧ Code.Blake2b512.digestSize = 64) ∧
     (Code.Blake2s128.code = 0xb250 ∧ Code.Blake2s128.digestSize = 16) ∧
     (Code.Blake2s256.code = 0xb260 ∧ Code.Blake2s256.digestSize = 32) ∧
     (Code.Blake3_256.code = 0x1e ∧ Code.Blake3_256.digestSize = 32) ∧
     (Code.Identity.code = 0x00 ∧ Code.Identity.digestSize = 64)) ∧
    ∀ a b : Code, a.code = b.code → a = b := by
  decide

/-- Witness for C2: the code-distinctness implication applied at a concrete
pair of variants with equal codes. -/
theorem claim2_registry_table_witness :
    Code.Sha3_256.code = Code.Sha3_256.code ∧ Code.Sha3_256 = Code.Sha3_256 :=
  ⟨rfl, claim2_registry_table.2 Code.Sha3_256 Code.Sha3_256 rfl⟩

/-- The UTF-8 bytes of the string "hello world". -/
def helloWorldBytes : List Nat :=
  [104, 101, 108, 108, 111, 32, 119, 111, 114, 108, 100]

/-- C3: hashing "hello world" with SHA3-256 yields a value with code 0x16 and
a 32-byte digest; its encoding is the byte 0x16, the byte 0x20, then the raw
digest bytes (each varint a single byte); decoding reproduces the value. -/
theorem claim3_sha3_256_hello (H : HasherFamily) (hH : H.wf) :
    (hash H Code.Sha3_256 helloWorldBytes).code = 0x16 ∧
    (hash H Code.Sha3_256 helloWorldBytes).size = 32 ∧
    Multihash.encode (hash H Code.Sha3_256 helloWorldBytes) =
      0x16 :: 0x20 :: H Code.Sha3_256 helloWorldBytes ∧
    Multihash.decode (Multihash.encode (hash H Code.Sha3_256 helloWorldBytes)) =
      .ok (hash H Code.Sha3_256 helloWorldBytes, []) := by
  have hlen : (H Code.Sha3_256 helloWorldBytes).length = 32 := by
    have h := (hH Code.Sha3_256 helloWorldBytes).1.1 (by decide)
    simpa [Code.digestSize] using h
  have htake : (H Code.Sha3_256 helloWorldBytes).take 32 =
      H Code.Sha3_256 helloWorldBytes := by
    rw [← hlen]
    exact List.take_length _
  refine ⟨rfl, hlen, ?_, Multihash.decode_encode _ (hash_wf H hH _ _)⟩
  show varintEncode 0x16 ++
      varintEncode (H Code.Sha3_256 helloWorldBytes).length ++
      (H Code.Sha3_256 helloWorldBytes).take
        (H Code.Sha3_256 helloWorldBytes).length =
      0x16 :: 0x20 :: H Code.Sha3_256 helloWorldBytes
  rw [List.take_length, hlen]
  rfl

/-- Witness for C3: the statement at the concrete hasher family. -/
theorem claim3_sha3_256_hello_witness :
    HasherFamily.wf sampleHashers ∧
      ((hash sampleHashers Code.Sha3_256 helloWorldBytes).code = 0x16 ∧
       (hash sampleHashers Code.Sha3_256 helloWorldBytes).size = 32 ∧
       Multihash.encode (hash sampleHashers Code.Sha3_256 helloWorldBytes) =
         0x16 :: 0x20 :: sampleHashers Code.Sha3_256 helloWorldBytes ∧
       Multihash.decode
           (Multihash.encode (hash sampleHashers Code.Sha3_256 helloWorldBytes)) =
         .ok (hash sampleHashers Code.Sha3_256 helloWorldBytes, [])) :=
  ⟨sampleHashers_wf, claim3_sha3_256_hello sampleHashers sampleHashers_wf⟩

/-- C4: for every well-formed Multihash Value, encode emits exactly
varint(code), then varint(size), then the size digest bytes — the length of
the output is exactly the sum of the three parts, so there is no padding,
checksum, terminator or extraneous byte. -/
theorem claim4_encode_exact (v : Multihash) (hv : v.wf) :
    Multihash.encode v =
      varintEncode v.code ++ varintEncode v.size ++ v.digest ∧
    (Multihash.encode v).length =
      (varintEncode v.code).length + (varintEncode v.size).length + v.size := by
  obtain ⟨-, hs, -, -⟩ := hv
  have htake : v.digest.take v.size = v.digest := by
    rw [hs]
    exact List.take_length v.digest
  constructor
  · show varintEncode v.code ++ varintEncode v.size ++ v.digest.take v.size = _
    rw [htake]
  · show (varintEncode v.code ++ varintEncode v.size ++
      v.digest.take v.size).length = _
    rw [htake]
    simp only [List.length_append, hs]

/-- Witness for C4 at a concrete well-formed value. -/
theorem claim4_encode_exact_witness :
    Multihash.wf { code := 0x16, size := 2, digest := [7, 9] } ∧
      (Multihash.encode { code := 0x16, size := 2, digest := [7, 9] } =
        varintEncode 0x16 ++ varintEncode 2 ++ [7, 9] ∧
       (Multihash.encode { code := 0x16, size := 2, digest := [7, 9] }).length =
        (varintEncode 0x16).length + (varintEncode 2).length + 2) :=
  ⟨by decide, claim4_encode_exact { code := 0x16, size := 2, digest := [7, 9] }
    (by decide)⟩

/-- C5: for every well-formed Multihash Value and every strict prefix of its
encoding, decode fails with Truncated — it is a total function returning an
explicit error, never a valid value. -/
theorem claim5_truncation (v : Multihash) (hv : v.wf) (k : Nat)
    (hk : k < (Multihash.encode v).length) :
    Multihash.decode ((Multihash.encode v).take k) = .error .Truncated := by
  obtain ⟨hc, hs, hcap, -⟩ := hv
  have hs64 : v.size < 2 ^ 64 := by
    have h64 : allocSize = 64 := rfl
    omega
  have htake : v.digest.take v.size = v.digest := by
    rw [hs]
    exact List.take_length v.digest
  have henc : Multihash.encode v =
      varintEncode v.code ++ (varintEncode v.size ++ v.digest) := by
    show varintEncode v.code ++ varintEncode v.size ++ v.digest.take v.size = _
    rw [htake, List.append_assoc]
  rw [henc] at hk ⊢
  rw [List.take_append_eq_append_take]
  by_cases h1 : k < (varintEncode v.code).length
  · have hz : k - (varintEncode v.code).length = 0 := by omega
    rw [hz, List.take_zero, List.append_nil]
    simp only [Multihash.decode, varintDecode_encode_take v.code hc k h1]
  · push_neg at h1
    rw [List.take_of_length_le h1, List.take_append_eq_append_take]
    by_cases h2 : k - (varintEncode v.code).length < (varintEncode v.size).length
    · have hz : k - (varintEncode v.code).length -
        (varintEncode v.size).length = 0 := by omega
      rw [hz, List.take_zero, List.append_nil]
      simp only [Multihash.decode, varintDecode_encode v.code hc,
        varintDecode_encode_take v.size hs64 _ h2]
    · push_neg at h2
      rw [List.take_of_length_le h2]
      have hk2 : k - (varintEncode v.code).length -
          (varintEncode v.size).length < v.digest.length := by
        simp only [List.length_append] at hk
        omega
      have hlen2 : (v.digest.take (k - (varintEncode v.code).length -
          (varintEncode v.size).length)).length < v.size := by
        rw [List.length_take]
        omega
      have hno : ¬ allocSize < v.size := Nat.not_lt.mpr hcap
      simp only [Multihash.decode, varintDecode_encode v.code hc,
        varintDecode_encode v.size hs64, if_neg hno, if_pos hlen2]

/-- Witness for C5 at a concrete well-formed value and cut point. -/
theorem claim5_truncation_witness :
    Multihash.wf { code := 0x16, size := 3, digest := [9, 8, 7] } ∧
      3 < (Multihash.encode { code := 0x16, size := 3, digest := [9, 8, 7] }).length ∧
      Multihash.decode ((Multihash.encode
          { code := 0x16, size := 3, digest := [9, 8, 7] }).take 3) =
        .error .Truncated :=
  ⟨by decide, by decide,
   claim5_truncation { code := 0x16, size := 3, digest := [9, 8, 7] }
     (by decide) 3 (by decide)⟩

/-- C6: for every input whose parsed digest_size varint exceeds the registry
capacity (allocSize = 64, the declared alloc_size), decode fails with
DigestTooLarge — whatever trailing bytes are or are not present. -/
theorem claim6_digest_too_large (bs : List Nat) (code size : Nat)
    (rest1 rest2 : List Nat)
    (hcode : varintDecode bs = .ok (code, rest1))
    (hsize : varintDecode rest1 = .ok (size, rest2))
    (hbig : allocSize < size) :
    Multihash.decode bs = .error .DigestTooLarge := by
  simp only [Multihash.decode, hcode, hsize, if_pos hbig]

/-- Witness for C6: a two-byte input claiming a 65-byte digest with no
trailing bytes at all. -/
theorem claim6_digest_too_large_witness :
    varintDecode [0x16, 65] = .ok (0x16, [65]) ∧
    varintDecode [65] = .ok (65, ([] : List Nat)) ∧
    allocSize < 65 ∧
    Multihash.decode [0x16, 65] = .error .DigestTooLarge :=
  ⟨by decide, by decide, by decide,
   claim6_digest_too_large [0x16, 65] 0x16 65 [65] []
     (by decide) (by decide) (by decide)⟩

/-- C7: varint decode rejects every continuation sequence longer than the ten
bytes a 64-bit value needs with MalformedVarint, and every input exhausted
before a byte with the continuation bit clear with Truncated. -/
theorem claim7_varint_rejection :
    (∀ bs : List Nat, 10 ≤ bs.length → (∀ b ∈ bs.take 10, 128 ≤ b) →
      varintDecode bs = .error .MalformedVarint) ∧
    (∀ bs : List Nat, bs.length ≤ 9 → (∀ b ∈ bs, 128 ≤ b) →
      varintDecode bs = .error .Truncated) := by
  constructor
  · intro bs hlen hall
    exact varintDecodeAux_allCont_long bs 0 0 0 (by omega) (by omega) hall
  · intro bs hlen hall
    exact varintDecodeAux_allCont_short bs 0 0 0 hall (by omega)

/-- Witness for C7: ten continuation bytes are malformed; two continuation
bytes then end of input are truncated. -/
theorem claim7_varint_rejection_witness :
    (10 ≤ (List.replicate 10 0x80).length ∧
     varintDecode (List.replicate 10 0x80) = .error .MalformedVarint) ∧
    (([0x80, 0x81] : List Nat).length ≤ 9 ∧
     varintDecode [0x80, 0x81] = .error .Truncated) :=
  ⟨⟨by decide,
    claim7_varint_rejection.1 (List.replicate 10 0x80) (by decide) (by decide)⟩,
   ⟨by decide,
    claim7_varint_rejection.2 [0x80, 0x81] (by decide) (by decide)⟩⟩

/-- C8: verify returns notFound exactly when the value's code resolves to no
descriptor in the registry (notFound being a different outcome from any
boolean comparison result), and when the code does resolve, verify fails with
sizeMismatch exactly when the declared size differs from the descriptor's
output size. -/
theorem claim8_verify (v : Multihash) (recomputed : List Nat) :
    (verify v recomputed = .notFound ↔ resolveCode v.code = none) ∧
    (∀ c, resolveCode v.code = some c →
      (verify v recomputed = .sizeMismatch ↔ v.size ≠ c.digestSize)) ∧
    (∀ b : Bool, VerifyOutcome.notFound ≠ .ok b) := by
  refine ⟨⟨?_, ?_⟩, ?_, ?_⟩
  · intro h
    cases hres : resolveCode v.code with
    | none => rfl
    | some c =>
      exfalso
      simp only [verify, hres] at h
      by_cases hsz : v.size = c.digestSize
      · rw [if_pos hsz] at h
        exact VerifyOutcome.noConfusion h
      · rw [if_neg hsz] at h
        exact VerifyOutcome.noConfusion h
  · intro h
    simp [verify, h]
  · intro c hres
    constructor
    · intro h hsz
      simp only [verify, hres, if_pos hsz] at h
      exact VerifyOutcome.noConfusion h
    · intro hsz
      simp [verify, hres, hsz]
  · intro b h
    exact VerifyOutcome.noConfusion h

/-- Witness for C8: an unregistered code gives notFound; SHA3-256's code with
a wrong declared size gives sizeMismatch. -/
theorem claim8_verify_witness :
    verify { code := 0x99, size := 32, digest := [] } [] = .notFound ∧
    resolveCode 0x16 = some Code.Sha3_256 ∧
    verify { code := 0x16, size := 31, digest := [] } [] = .sizeMismatch :=
  ⟨(claim8_verify { code := 0x99, size := 32, digest := [] } []).1.mpr (by decide),
   by decide,
   ((claim8_verify { code := 0x16, size := 31, digest := [] } []).2.1
     Code.Sha3_256 (by decide)).mpr (by decide)⟩

/-- C9: the identity hasher's digest is the input passed through, truncated
deterministically to the declared cap of 64 bytes: it is the 64-byte prefix,
its length is min(input length, 64) — so never more than the cap, and equal
to the whole input whenever the input fits the cap. -/
theorem claim9_identity (input : List Nat) :
    identityDigest input = input.take 64 ∧
    (identityDigest input).length = min input.length 64 ∧
    (identityDigest input).length ≤ 64 ∧
    (input.length ≤ 64 → identityDigest input = input) := by
  refine ⟨rfl, ?_, ?_, ?_⟩
  · show (input.take (Code.digestSize Code.Identity)).length = _
    rw [List.length_take]
    exact Nat.min_comm _ _
  · show (input.take (Code.digestSize Code.Identity)).length ≤ 64
    rw [List.length_take]
    exact Nat.min_le_left _ _
  · intro h
    exact List.take_of_length_le h

/-- Witness for C9: a three-byte input fits the cap and passes through. -/
theorem claim9_identity_witness :
    ([1, 2, 3] : List Nat).length ≤ 64 ∧ identityDigest [1, 2, 3] = [1, 2, 3] :=
  ⟨by decide, (claim9_identity [1, 2, 3]).2.2.2 (by decide)⟩

/-- C10: the two construction paths agree for every variant and input —
wrapping the raw hasher output directly (multihash_from_digest) equals the
variant's own digest dispatch, which routes the output through the
fixed-capacity Digest Buffer. -/
theorem claim10_paths_agree (H : HasherFamily) (hH : H.wf) (c : Code)
    (input : List Nat) :
    dispatchDigest H c input = multihashFromDigest c (H c input) := by
  obtain ⟨⟨hfix, hid⟩, -⟩ := hH c input
  have hlen : (H c input).length ≤ allocSize := by
    by_cases hc : c = Code.Identity
    · have h1 := hid hc
      have h2 : Code.digestSize Code.Identity ≤ allocSize := Code.digestSize_le _
      omega
    · rw [hfix hc]
      exact c.digestSize_le
  have hmin : min (H c input).length allocSize = (H c input).length :=
    Nat.min_eq_left hlen
  have hdig : ((H c input ++
      List.replicate (allocSize - (H c input).length) 0).take allocSize).take
        (H c input).length = H c input := by
    rw [List.take_take, hmin, List.take_append_eq_append_take,
      List.take_length, Nat.sub_self, List.take_zero, List.append_nil]
  simp only [dispatchDigest, DigestBuffer.write, DigestBuffer.bytes,
    multihashFromDigest]
  rw [hmin, hdig]

/-- Witness for C10 at the Keccak-512 variant and a concrete input, with the
hasher-family hypothesis discharged at the concrete family. -/
theorem claim10_paths_agree_witness :
    HasherFamily.wf sampleHashers ∧
      dispatchDigest sampleHashers Code.Keccak512 [5, 6] =
        multihashFromDigest Code.Keccak512 (sampleHashers Code.Keccak512 [5, 6]) :=
  ⟨sampleHashers_wf,
   claim10_paths_agree sampleHashers sampleHashers_wf Code.Keccak512 [5, 6]⟩
